import Mathlib

/-!
Verification of the map-reduce PII-detection pipeline (langgraph-pii-detector).

Shallow embedding of the repository's core algorithms over `List Char`:
the masking engine (`mask_text_with_normalization` in src/utils.py), the
chunker entry (`chunk_document` in src/utils.py), the reprompt controller
and round loop (`_should_reprompt`, `_identify_pii_items` in
src/nodes_edges.py), the deduplicating post-processor
(`_postprocess_pii_items`) and the per-document combiner
(`_combine_file_pii_items`).

Python strings are modelled as `List Char`; Python slices `s[i:j]` as
`strSub`, `str.find` as `pyFind`, `str.replace` as `pyReplace`,
`str.strip` as `pyStrip`.  Unicode NFKD normalization is modelled over
strings whose characters have trivial NFKD decomposition (no precomposed
and no compatibility characters); on such strings NFKD is the identity
and `unicodedata` normalization reduces to dropping combining marks.
U+0301 COMBINING ACUTE ACCENT is the representative combining mark.
-/

/-- Python slice `s[i:j]` for natural `i`, `j` (clamping semantics). -/
def strSub (s : List Char) (i j : Nat) : List Char :=
  (s.drop i).take (j - i)

/-- The combining-class test used by `_normalize_and_strip`
(src/utils.py:117-120): among the characters modelled here, exactly
U+0301 COMBINING ACUTE ACCENT has a nonzero combining class. -/
def isCombiningChar (c : Char) : Bool :=
  c.val == 0x301

/-- `_normalize_and_strip` (src/utils.py:117-120): NFKD-normalize, then
drop combining characters.  On the modelled character set NFKD is the
identity, so only the filter remains. -/
def normalize_and_strip (s : List Char) : List Char :=
  s.filter (fun c => !isCombiningChar c)

/-- Whether the needle matches the haystack at position `i`
(full-slice equality, as Python substring search requires). -/
def matchesAt (hay need : List Char) (i : Nat) : Bool :=
  decide (strSub hay i (i + need.length) = need)

/-- Linear probe of positions `i, i+1, ...` bounded by `fuel`. -/
def pyFindAux (hay need : List Char) : Nat → Nat → Option Nat
  | _, 0 => none
  | i, fuel + 1 =>
    if matchesAt hay need i then some i
    else pyFindAux hay need (i + 1) fuel

/-- Python `hay.find(need, start)` (src/utils.py:170): smallest index
`idx ≥ start` with `hay[idx : idx+len(need)] == need`, `none` for -1. -/
def pyFind (hay need : List Char) (start : Nat) : Option Nat :=
  if start ≤ hay.length then pyFindAux hay need start (hay.length + 1 - start)
  else none

/-- The scan loop of `mask_text_with_normalization`
(src/utils.py:168-178): repeatedly `find` from `start`, then restart at
`idx + 1` (overlap-tolerant), collecting every match index.  The fuel
argument makes the loop structurally recursive; it is initialized so
that it never runs out. -/
def findAllAux (hay need : List Char) : Nat → Nat → List Nat
  | _, 0 => []
  | start, fuel + 1 =>
    match pyFind hay need start with
    | none => []
    | some idx => idx :: findAllAux hay need (idx + 1) fuel

/-- All match indices of `need` in `hay`, in increasing order. -/
def findAll (hay need : List Char) : List Nat :=
  findAllAux hay need 0 (hay.length + 1)

/-- The mask character `'*'` used by the masking engine. -/
def maskChar : Char := '*'

/-- Mask ranges contributed by one PII item (src/utils.py:165-178):
find all occurrences of the normalized item in the normalized text,
keep an index `idx` only if the original slice
`text[idx : idx+len(pii)]` has the same normalized form, and record the
range `(idx, idx + len(pii))`. -/
def maskRangesOf (text piiItem : List Char) : List (Nat × Nat) :=
  (findAll (normalize_and_strip text) (normalize_and_strip piiItem)).filterMap
    (fun idx =>
      if normalize_and_strip (strSub text idx (idx + piiItem.length)) =
          normalize_and_strip piiItem
      then some (idx, idx + piiItem.length)
      else none)

/-- All mask ranges over all PII items, in the loop's order
(src/utils.py:165-178). -/
def allMaskRanges (text : List Char) (piiItems : List (List Char)) :
    List (Nat × Nat) :=
  (piiItems.map (maskRangesOf text)).flatten

/-- Lexicographic order on ranges: Python `list.sort()` on
`[start, end]` pairs (src/utils.py:181). -/
def rangeLe (a b : Nat × Nat) : Prop :=
  a.1 < b.1 ∨ (a.1 = b.1 ∧ a.2 ≤ b.2)

instance : DecidableRel rangeLe := fun a b => by
  unfold rangeLe; infer_instance

instance : IsTotal (Nat × Nat) rangeLe :=
  ⟨fun a b => by unfold rangeLe; omega⟩

instance : IsTrans (Nat × Nat) rangeLe :=
  ⟨fun a b c => by unfold rangeLe; omega⟩

/-- The merge loop of src/utils.py:182-187.  The Python loop keeps the
last merged range open as `merged[-1]`, appending a new range when
`start > merged[-1][1]` and otherwise widening `merged[-1][1]` to
`max(merged[-1][1], end)`; here `cur` is that open range. -/
def mergeLoop : Nat × Nat → List (Nat × Nat) → List (Nat × Nat)
  | cur, [] => [cur]
  | cur, r :: rs =>
    if cur.2 < r.1 then cur :: mergeLoop r rs
    else mergeLoop (cur.1, max cur.2 r.2) rs

/-- Merge overlapping or touching ranges (src/utils.py:180-187). -/
def merge_ranges : List (Nat × Nat) → List (Nat × Nat)
  | [] => []
  | r :: rs => mergeLoop r rs

/-- Sorting of the collected ranges (src/utils.py:181).  Python
`list.sort()` is a stable sort for the total, antisymmetric
lexicographic order on pairs, so every correct sorting algorithm
produces the same output; insertion sort is used here. -/
def sortRanges (rs : List (Nat × Nat)) : List (Nat × Nat) :=
  List.insertionSort rangeLe rs

/-- The sorted and merged mask ranges for a text and PII list. -/
def mergedMaskRanges (text : List Char) (piiItems : List (List Char)) :
    List (Nat × Nat) :=
  merge_ranges (sortRanges (allMaskRanges text piiItems))

/-- The output-building loop of src/utils.py:189-196: for each merged
range append `text[last:start]` and `'*' * (end - start)`, finally
append `text[last:]`. -/
def build_masked (text : List Char) : Nat → List (Nat × Nat) → List Char
  | last, [] => text.drop last
  | last, (s, e) :: rs =>
    strSub text last s ++ List.replicate (e - s) maskChar ++
      build_masked text e rs

/-- `mask_text_with_normalization` (src/utils.py:155-198): with no PII
items the text is returned unchanged; otherwise all normalized matches
are collected, sorted, merged, and replaced by runs of `'*'`. -/
def mask_text_with_normalization (text : List Char)
    (piiItems : List (List Char)) : List Char :=
  if piiItems.isEmpty then text
  else build_masked text 0 (mergedMaskRanges text piiItems)

/-- Python whitespace for `str.strip()`. -/
def isPySpace (c : Char) : Bool :=
  c == ' ' || c == '\n' || c == '\t' || c == '\r' || c == '\x0b' || c == '\x0c'

/-- Python `s.strip()`: remove leading and trailing whitespace. -/
def pyStrip (s : List Char) : List Char :=
  ((s.dropWhile isPySpace).reverse.dropWhile isPySpace).reverse

/-- `re.sub(r'\n+', ' ', s)` (src/utils.py:107): each maximal run of
newline characters becomes one space.  The Boolean argument records
whether the previous character was a newline. -/
def collapseNlAux : Bool → List Char → List Char
  | _, [] => []
  | prevNl, c :: rest =>
    if c = '\n' then
      if prevNl then collapseNlAux true rest
      else ' ' :: collapseNlAux true rest
    else c :: collapseNlAux false rest

/-- Replace every maximal newline run by a single space. -/
def collapseNewlineRuns (s : List Char) : List Char :=
  collapseNlAux false s

/-- The chunk post-processing of src/utils.py:107:
`[re.sub(r'\n+', ' ', doc.strip()) for doc in split_docs if doc.strip()]`. -/
def splitPostprocess (docs : List (List Char)) : List (List Char) :=
  (docs.filter (fun d => !(pyStrip d).isEmpty)).map
    (fun d => collapseNewlineRuns (pyStrip d))

/-- `chunk_document` (src/utils.py:65-115).  The recursive splitter it
delegates long documents to is external library code, abstracted as
`splitText`; the parameter validation, the short-document branch
(`tuple(text)`, a tuple of the text's characters, i.e. one fragment per
character), and the post-processing are the repository's own code.
`none` models the raised `ValueError`; `overlap < 0` cannot occur for
naturals. -/
def chunk_document (splitText : List Char → List (List Char))
    (text : List Char) (size overlap : Nat) : Option (List (List Char)) :=
  if size = 0 || decide (size ≤ overlap) then none
  else if text.length < size then some (text.map (fun c => [c]))
  else some (splitPostprocess (splitText text))

/-- `_should_reprompt` (src/nodes_edges.py:237-244): route to masking
(`true`) iff `REPROMPTING and n_prompts < MAX_PROMPTS`; otherwise
finalize (`false`). -/
def should_reprompt (reprompting : Bool) (maxPromptCount nPromptCount : Nat) :
    Bool :=
  reprompting && decide (nPromptCount < maxPromptCount)

/-- Aggregate effect of one detection round on the `n_prompts` counter
(src/nodes_edges.py:120-155 with the `max` reducer of
src/states.py): every chunk task receives the same snapshot `n`; a task
whose oracle response parses as a fenced non-empty JSON list writes
`n + 1`, all others write nothing, so the round's maximum is `n + 1`
when at least one task parsed and `n` otherwise. -/
def detectRoundStep (nPromptCount : Nat) (anyParsed : Bool) : Nat :=
  if anyParsed then nPromptCount + 1 else nPromptCount

/-- The pipeline's detect/decide cycle: starting at round index `k`
with counter `n`, perform a detection round, aggregate the counter,
and consult `should_reprompt`; `some m` means the controller finalized
after `m` detection rounds in total, `none` that it was still looping
when the fuel ran out.  `oracleParses k` says whether any chunk's
oracle response parsed in round `k`. -/
def roundsUntilFinalize (reprompting : Bool) (maxPromptCount : Nat)
    (oracleParses : Nat → Bool) : Nat → Nat → Nat → Option Nat
  | _, _, 0 => none
  | k, n, fuel + 1 =>
    let n2 := detectRoundStep n (oracleParses k)
    if should_reprompt reprompting maxPromptCount n2 then
      roundsUntilFinalize reprompting maxPromptCount oracleParses (k + 1) n2 fuel
    else some (k + 1)

/-- One candidate PII span as reported by the oracle
(`{text, category, type, justification}`). -/
structure DetectionRecord where
  text : List Char
  category : List Char
  identifierType : List Char
  justification : List Char
deriving DecidableEq

/-- The dedup key of `_postprocess_pii_items` (src/nodes_edges.py:395):
`f"{text}_{category}"`. -/
def itemKey (r : DetectionRecord) : List Char :=
  r.text ++ '_' :: r.category

/-- Python `'****' in s`: does `s` contain four consecutive mask
characters (src/nodes_edges.py:399)? -/
def hasQuadMask : List Char → Bool
  | '*' :: '*' :: '*' :: '*' :: _ => true
  | _ :: rest => hasQuadMask rest
  | [] => false

/-- The dedup loop of `_postprocess_pii_items`
(src/nodes_edges.py:390-402): keep a record iff its key is unseen and
its text does not contain `'****'`; only kept records add their key to
the seen set. -/
def dedupAux : List DetectionRecord → List (List Char) → List DetectionRecord
  | [], _ => []
  | r :: rest, seen =>
    if itemKey r ∈ seen then dedupAux rest seen
    else if hasQuadMask r.text then dedupAux rest seen
    else r :: dedupAux rest (itemKey r :: seen)

/-- Deduplicate one document's merged detection list
(src/nodes_edges.py:389-402). -/
def dedupRecords (l : List DetectionRecord) : List DetectionRecord :=
  dedupAux l []

/-- A parsed Python JSON value, as far as the pipeline inspects it:
either a JSON array (list) whose elements are opaque, or anything
else. -/
inductive PyJson where
  | jarr (items : List (List Char)) : PyJson
  | jother : PyJson
deriving DecidableEq

/-- The opening fence tested by src/nodes_edges.py:137. -/
def fenceOpen : List Char := "```json\n".toList

/-- The closing fence tested by src/nodes_edges.py:137. -/
def fenceClose : List Char := "\n```".toList

/-- Python `hay.replace(pat, repl)` for non-empty `pat`: replace all
non-overlapping occurrences left to right.  Fuel-structural; the fuel
`hay.length` always suffices because every step consumes at least one
character of `hay`. -/
def pyReplaceAux (pat repl : List Char) : Nat → List Char → List Char
  | 0, hay => hay
  | fuel + 1, hay =>
    if !pat.isEmpty && pat.isPrefixOf hay then
      repl ++ pyReplaceAux pat repl fuel (hay.drop pat.length)
    else
      match hay with
      | [] => []
      | c :: rest => c :: pyReplaceAux pat repl fuel rest

/-- Python `hay.replace(pat, repl)` for non-empty `pat`. -/
def pyReplace (hay pat repl : List Char) : List Char :=
  pyReplaceAux pat repl hay.length hay

/-- The fence-strip expression of src/nodes_edges.py:138:
`content.replace("```json\n", "").replace("\n```", "").strip()`. -/
def strippedPayload (content : List Char) : List Char :=
  pyStrip (pyReplace (pyReplace content fenceOpen []) fenceClose [])

/-- The fence test of src/nodes_edges.py:137:
`content.startswith("```json\n") and content.endswith("\n```")`. -/
def fenced (content : List Char) : Bool :=
  fenceOpen.isPrefixOf content && fenceClose.isSuffixOf content

/-- The oracle-response handling of `_identify_pii_items`
(src/nodes_edges.py:137-155), with the JSON parser abstracted as
`parse` (`none` models a raised `JSONDecodeError`, caught at
src/nodes_edges.py:150).  The result is the chunk task's contribution
to `partial_pii_items`: `some` of the stripped content string when the
response is fence-wrapped and parses to a non-empty JSON list, `none`
(no contribution, the empty result) otherwise.  Note that `json.loads`
is only reached inside the fence branch. -/
def identify_pii_items (parse : List Char → Option PyJson)
    (content : List Char) : Option (List Char) :=
  if fenced content then
    match parse (strippedPayload content) with
    | some (PyJson.jarr items) =>
      if items.isEmpty then none else some (strippedPayload content)
    | some PyJson.jother => none
    | none => none
  else none

/-- `_combine_file_pii_items` (src/nodes_edges.py:184-235) for one
document, with the reduce-prompt oracle call and its JSON parse
abstracted as `reduceParse` (`none`: the response failed to parse or
the node raised; caught at src/nodes_edges.py:230-233).  An entry for
the document is produced only when the id and the round's item list
are non-empty and the parsed combined list is a non-empty list; the
entry holds the previously collected records followed by the new
ones. -/
def combine_file_pii_items (reduceParse : Option (List DetectionRecord))
    (fileId : List Char) (roundItems : List (List Char))
    (existing : List DetectionRecord) :
    List (List Char × List DetectionRecord) :=
  if fileId.isEmpty || roundItems.isEmpty then []
  else
    match reduceParse with
    | some pii => if pii.isEmpty then [] else [(fileId, existing ++ pii)]
    | none => []

/-- `_postprocess_pii_items` (src/nodes_edges.py:367-422): one output
entry `{id, pii}` per entry of `collected_pii_items`, with the pii list
deduplicated.  (The JSON decoding of each stored string is abstracted
as already done; a decode failure would skip the entry.) -/
def postprocess_pii_items
    (collected : List (List Char × List DetectionRecord)) :
    List (List Char × List DetectionRecord) :=
  collected.map (fun p => (p.1, dedupRecords p.2))

/-- Equal `(text, category)` pairs give equal dedup keys. -/
theorem key_eq_of_same_pair {a b : DetectionRecord} (ht : a.text = b.text)
    (hc : a.category = b.category) : itemKey a = itemKey b := by
  simp [itemKey, ht, hc]

/-- Every record surviving `dedupAux` has a key outside `seen`. -/
theorem mem_dedupAux_key_not_seen :
    ∀ (l : List DetectionRecord) (seen : List (List Char))
      (r : DetectionRecord), r ∈ dedupAux l seen → itemKey r ∉ seen := by
  intro l
  induction l with
  | nil => intro seen r h; simp [dedupAux] at h
  | cons r0 rest ih =>
    intro seen r h
    simp only [dedupAux] at h
    split at h
    · exact ih seen r h
    · split at h
      · exact ih seen r h
      · rcases List.mem_cons.mp h with h2 | h2
        · subst h2; assumption
        · intro hs
          exact ih _ r h2 (List.mem_cons_of_mem _ hs)

/-- Every record surviving `dedupAux` is free of `'****'`. -/
theorem mem_dedupAux_no_quad :
    ∀ (l : List DetectionRecord) (seen : List (List Char))
      (r : DetectionRecord), r ∈ dedupAux l seen →
      hasQuadMask r.text = false := by
  intro l
  induction l with
  | nil => intro seen r h; simp [dedupAux] at h
  | cons r0 rest ih =>
    intro seen r h
    simp only [dedupAux] at h
    split at h
    · exact ih seen r h
    · split at h
      · exact ih seen r h
      · rcases List.mem_cons.mp h with h2 | h2
        · subst h2; simp_all
        · exact ih _ r h2

/-- `dedupAux` output is a sublist of its input. -/
theorem dedupAux_sublist :
    ∀ (l : List DetectionRecord) (seen : List (List Char)),
      (dedupAux l seen).Sublist l := by
  intro l
  induction l with
  | nil => intro seen; simp [dedupAux]
  | cons r0 rest ih =>
    intro seen
    simp only [dedupAux]
    split
    · exact (ih seen).cons r0
    · split
      · exact (ih seen).cons r0
      · exact (ih _).cons₂ r0

/-- `dedupAux` output has pairwise distinct keys. -/
theorem dedupAux_keys_pairwise :
    ∀ (l : List DetectionRecord) (seen : List (List Char)),
      (dedupAux l seen).Pairwise (fun a b => itemKey a ≠ itemKey b) := by
  intro l
  induction l with
  | nil => intro seen; simp [dedupAux]
  | cons r0 rest ih =>
    intro seen
    simp only [dedupAux]
    split
    · exact ih seen
    · split
      · exact ih seen
      · refine List.Pairwise.cons ?_ (ih _)
        intro b hb hkey
        have := mem_dedupAux_key_not_seen _ _ _ hb
        exact this (hkey ▸ List.mem_cons_self _ _)

/-- `dedupAux` leaves a list unchanged when no record has `'****'`,
keys are pairwise distinct and no key is already seen. -/
theorem dedupAux_fixed :
    ∀ (l : List DetectionRecord) (seen : List (List Char)),
      (∀ r ∈ l, hasQuadMask r.text = false) →
      l.Pairwise (fun a b => itemKey a ≠ itemKey b) →
      (∀ r ∈ l, itemKey r ∉ seen) →
      dedupAux l seen = l := by
  intro l
  induction l with
  | nil => intro seen _ _ _; simp [dedupAux]
  | cons r0 rest ih =>
    intro seen hq hp hs
    have h0 : itemKey r0 ∉ seen := hs r0 (List.mem_cons_self _ _)
    have hq0 : hasQuadMask r0.text = false := hq r0 (List.mem_cons_self _ _)
    simp only [dedupAux, if_neg h0, hq0]
    simp only [Bool.false_eq_true, if_false, List.cons.injEq, true_and]
    refine ih _ (fun r hr => hq r (List.mem_cons_of_mem _ hr))
      (List.Pairwise.sublist (List.sublist_cons_self r0 rest) hp) ?_
    intro r hr
    rcases List.pairwise_cons.mp hp with ⟨hp0, _⟩
    intro hmem
    rcases List.mem_cons.mp hmem with h2 | h2
    · exact hp0 r hr h2.symm
    · exact hs r (List.mem_cons_of_mem _ hr) h2

/-- A record of `l` without `'****'` always has a key representative in
`dedupAux l seen`, unless its key was already seen. -/
theorem dedupAux_key_covered :
    ∀ (l : List DetectionRecord) (seen : List (List Char))
      (r : DetectionRecord), r ∈ l → hasQuadMask r.text = false →
      itemKey r ∈ seen ∨ ∃ q ∈ dedupAux l seen, itemKey q = itemKey r := by
  intro l
  induction l with
  | nil => intro seen r h; simp at h
  | cons r0 rest ih =>
    intro seen r hr hq
    simp only [dedupAux]
    rcases List.mem_cons.mp hr with h2 | h2
    · subst h2
      split
      · left; assumption
      · split
        · simp_all
        · right; exact ⟨r, List.mem_cons_self _ _, rfl⟩
    · split
      · exact ih seen r h2 hq
      · split
        · exact ih seen r h2 hq
        · rcases ih (itemKey r0 :: seen) r h2 hq with h3 | ⟨q, hq1, hq2⟩
          · rcases List.mem_cons.mp h3 with h4 | h4
            · right; exact ⟨r0, List.mem_cons_self _ _, h4.symm⟩
            · left; exact h4
          · right; exact ⟨q, List.mem_cons_of_mem _ hq1, hq2⟩

/-- Every survivor sits at the first occurrence of its
`(text, category)` pair. -/
theorem dedupAux_first_occurrence :
    ∀ (l : List DetectionRecord) (seen : List (List Char))
      (r : DetectionRecord), r ∈ dedupAux l seen →
      ∃ l1 l2, l = l1 ++ r :: l2 ∧
        ∀ q ∈ l1, ¬(q.text = r.text ∧ q.category = r.category) := by
  intro l
  induction l with
  | nil => intro seen r h; simp [dedupAux] at h
  | cons r0 rest ih =>
    intro seen r h
    have hkey : itemKey r ∉ seen := mem_dedupAux_key_not_seen _ _ _ h
    have hnq : hasQuadMask r.text = false := mem_dedupAux_no_quad _ _ _ h
    simp only [dedupAux] at h
    split at h
    · rcases ih seen r h with ⟨l1, l2, heq, hfirst⟩
      refine ⟨r0 :: l1, l2, by simp [heq], ?_⟩
      intro q hq hpair
      rcases List.mem_cons.mp hq with h2 | h2
      · subst h2
        exact hkey (key_eq_of_same_pair hpair.1 hpair.2 ▸ (by assumption))
      · exact hfirst q h2 hpair
    · split at h
      · rcases ih seen r h with ⟨l1, l2, heq, hfirst⟩
        refine ⟨r0 :: l1, l2, by simp [heq], ?_⟩
        intro q hq hpair
        rcases List.mem_cons.mp hq with h2 | h2
        · subst h2
          rw [hpair.1] at *
          simp_all
        · exact hfirst q h2 hpair
      · rcases List.mem_cons.mp h with h2 | h2
        · subst h2
          exact ⟨[], rest, rfl, by simp⟩
        · rcases ih _ r h2 with ⟨l1, l2, heq, hfirst⟩
          refine ⟨r0 :: l1, l2, by simp [heq], ?_⟩
          intro q hq hpair
          rcases List.mem_cons.mp hq with h3 | h3
          · subst h3
            have := mem_dedupAux_key_not_seen _ _ _ h2
            exact this (key_eq_of_same_pair hpair.1 hpair.2 ▸
              List.mem_cons_self _ _)
          · exact hfirst q h3 hpair

/-- A record whose text is entirely mask characters but shorter than
four characters. -/
def recAllMask : DetectionRecord :=
  ⟨"***".toList, "name".toList, "direct".toList, "j1".toList⟩

/-- A record whose text contains `'****'` along with ordinary
characters. -/
def recMixedMask : DetectionRecord :=
  ⟨"ab****cd".toList, "email".toList, "direct".toList, "j2".toList⟩

/-- An ordinary record. -/
def recPlain : DetectionRecord :=
  ⟨"john".toList, "name".toList, "direct".toList, "j3".toList⟩

/-- A duplicate of `recPlain` up to the `(text, category)` key. -/
def recPlainDup : DetectionRecord :=
  ⟨"john".toList, "name".toList, "indirect".toList, "j4".toList⟩

/-- C6: the deduplicator is idempotent, its output has at most one
record per distinct `(text, category)` key, and it keeps only first
occurrences, preserving the input's relative order (the output is a
sublist of the input and each kept record is the first record of its
`(text, category)` pair). -/
theorem dedup_idempotent_stable (L : List DetectionRecord) :
    dedupRecords (dedupRecords L) = dedupRecords L ∧
    (dedupRecords L).Pairwise
      (fun a b => ¬(a.text = b.text ∧ a.category = b.category)) ∧
    (dedupRecords L).Sublist L ∧
    (∀ r ∈ dedupRecords L, ∃ l1 l2, L = l1 ++ r :: l2 ∧
      ∀ q ∈ l1, ¬(q.text = r.text ∧ q.category = r.category)) := by
  refine ⟨?_, ?_, dedupAux_sublist L [], fun r hr => dedupAux_first_occurrence L [] r hr⟩
  · exact dedupAux_fixed _ [] (fun r hr => mem_dedupAux_no_quad _ _ _ hr)
      (dedupAux_keys_pairwise L []) (by simp)
  · exact (dedupAux_keys_pairwise L []).imp
      (fun h hpair => h (key_eq_of_same_pair hpair.1 hpair.2))

/-- C6 witness: the general theorem applied to a concrete list with a
duplicate key. -/
theorem dedup_idempotent_stable_witness :
    dedupRecords (dedupRecords [recPlain, recPlainDup]) =
      dedupRecords [recPlain, recPlainDup] :=
  (dedup_idempotent_stable [recPlain, recPlainDup]).1

/-- C7 counterexample: the record with text `"***"` consists entirely
of mask characters, yet the deduplicator keeps it (the code tests for
the substring `'****'`, not for all-mask texts), while a record whose
text merely contains `'****'` among ordinary characters is dropped. -/
theorem dedup_mask_filter_cex :
    dedupRecords [recAllMask] = [recAllMask] ∧
    recAllMask.text.all (fun c => c == maskChar) = true ∧
    dedupRecords [recMixedMask] = [] := by
  refine ⟨by decide, by decide, by decide⟩

/-- C7 amended: the deduplicator drops exactly the records whose text
contains four consecutive mask characters: no survivor contains
`'****'`, and every input record without `'****'` keeps a
representative of its key in the output. -/
theorem dedup_quadmask_filter (L : List DetectionRecord) :
    (∀ r ∈ dedupRecords L, hasQuadMask r.text = false) ∧
    (∀ r ∈ L, hasQuadMask r.text = false →
      ∃ q ∈ dedupRecords L, itemKey q = itemKey r) := by
  refine ⟨fun r hr => mem_dedupAux_no_quad _ _ _ hr, fun r hr hq => ?_⟩
  rcases dedupAux_key_covered L [] r hr hq with h | h
  · simp at h
  · exact h

/-- C7 witness: the amended theorem applied to a concrete record. -/
theorem dedup_quadmask_filter_witness :
    ∃ q ∈ dedupRecords [recPlain], itemKey q = itemKey recPlain :=
  (dedup_quadmask_filter [recPlain]).2 recPlain (by decide) (by decide)

/-- The id of the document used in the C9 counterexample run. -/
def docOneId : List Char := "doc-1".toList

/-- C9 counterexample: a run that loads one document (`docOneId`) in
which the oracle never produces a combinable detection list: the
combiner yields no entry, `collected_pii_items` stays empty, and the
final output is empty — it has no entry for the loaded document,
contrary to the claim. -/
theorem final_output_missing_document_cex :
    combine_file_pii_items (some []) docOneId [] [] = [] ∧
    postprocess_pii_items [] = [] ∧
    ¬ docOneId ∈ (postprocess_pii_items []).map Prod.fst := by
  refine ⟨by decide, rfl, by simp [postprocess_pii_items]⟩

/-- C9 amended: the final output contains exactly one entry per entry
of `collected_pii_items`, in order — i.e. per document whose detections
were successfully combined — not per loaded document. -/
theorem final_output_ids_eq_collected
    (collected : List (List Char × List DetectionRecord)) :
    (postprocess_pii_items collected).map Prod.fst = collected.map Prod.fst := by
  simp [postprocess_pii_items, List.map_map]

/-- C10: masking with an empty PII list returns the text unchanged. -/
theorem mask_empty_pii_identity (text : List Char) :
    mask_text_with_normalization text [] = text := rfl

/-- A splitter stub; the short-document branch never consults it. -/
def unusedSplitter : List Char → List (List Char) := fun _ => []

/-- The two-character document of the C5 failing input. -/
def shortDocText : List Char := "ab".toList

/-- C5: evaluating `chunk_document` on a document shorter than the
chunk size.  `tuple(text)` (src/utils.py:98) builds a tuple of the
text's characters, so the two-character document yields two
single-character fragments, not the whole text as a single fragment
(the adjacent log line "No chunking applied" documents the intended
behavior). -/
theorem chunk_short_document_eval :
    chunk_document unusedSplitter shortDocText 1024 128 =
      some [['a'], ['b']] ∧
    chunk_document unusedSplitter shortDocText 1024 128 ≠
      some [shortDocText] := by
  refine ⟨by decide, by decide⟩

/-- C3: evaluating the reprompt loop.  The controller routes to
masking iff `REPROMPTING ∧ n_prompts < MAX_PROMPTS`, but `n_prompts`
only advances in rounds where some chunk's oracle response parses
(src/nodes_edges.py:137-147), so with `REPROMPTING=true`,
`MAX_PROMPTS=2` and an oracle whose responses never parse the run is
still looping after 10 rounds (first conjunct) — not "exactly 2
rounds regardless of what the oracle returns" — while an
always-parsing oracle gives exactly 2 rounds and
`repromptingEnabled=false` gives exactly 1 round. -/
theorem reprompt_rounds_eval :
    roundsUntilFinalize true 2 (fun _ => false) 0 0 10 = none ∧
    should_reprompt true 2
      (detectRoundStep (detectRoundStep 0 false) false) = true ∧
    roundsUntilFinalize true 2 (fun _ => true) 0 0 10 = some 2 ∧
    roundsUntilFinalize false 2 (fun _ => true) 0 0 10 = some 1 ∧
    roundsUntilFinalize false 2 (fun _ => false) 0 0 10 = some 1 := by
  refine ⟨by decide, by decide, by decide, by decide, by decide⟩

/-- A well-formed JSON-array payload. -/
def arrPayload : List Char := "[1]".toList

/-- The same payload wrapped in the code fence the oracle sometimes
emits. -/
def fencedArrInput : List Char := "```json\n[1]\n```".toList

/-- A parser stub standing for `json.loads`: it parses `arrPayload` as
a non-empty JSON array and fails on everything else. -/
def parseStub : List Char → Option PyJson :=
  fun s => if s = arrPayload then some (PyJson.jarr [['x']]) else none

/-- C8 counterexample: `arrPayload` is a well-formed JSON array (the
parser accepts it), yet when it arrives without a fence wrapper the
chunk task contributes the empty result, because `json.loads` is only
reached inside the fence branch (src/nodes_edges.py:137-140); the same
payload fence-wrapped is accepted. -/
theorem identify_unfenced_cex :
    parseStub arrPayload = some (PyJson.jarr [['x']]) ∧
    identify_pii_items parseStub arrPayload = none ∧
    identify_pii_items parseStub fencedArrInput = some arrPayload := by
  refine ⟨by decide, by decide, by decide⟩

/-- C8 amended: the detect-path parser accepts only fence-wrapped
payloads — an unfenced response contributes the empty result without
any parse attempt; a fenced response whose stripped payload parses to
a non-empty JSON array contributes it; a fenced response whose payload
fails to parse, or is not a (non-empty) list, contributes the empty
result, and no failure propagates (the function is total). -/
theorem identify_fence_behavior (parse : List Char → Option PyJson)
    (content : List Char) :
    (fenced content = false → identify_pii_items parse content = none) ∧
    (∀ items, fenced content = true →
      parse (strippedPayload content) = some (PyJson.jarr items) →
      items ≠ [] →
      identify_pii_items parse content = some (strippedPayload content)) ∧
    (fenced content = true → parse (strippedPayload content) = none →
      identify_pii_items parse content = none) ∧
    (fenced content = true →
      parse (strippedPayload content) = some PyJson.jother →
      identify_pii_items parse content = none) := by
  refine ⟨fun h => by simp [identify_pii_items, h], ?_, ?_, ?_⟩
  · intro items hf hp hne
    simp only [identify_pii_items, hf, if_true, hp]
    rw [if_neg]
    simp [List.isEmpty_iff, hne]
  · intro hf hp
    simp [identify_pii_items, hf, hp]
  · intro hf hp
    simp [identify_pii_items, hf, hp]

/-- C8 witness: the amended theorem applied to the concrete fenced
payload. -/
theorem identify_fence_behavior_witness :
    identify_pii_items parseStub fencedArrInput =
      some (strippedPayload fencedArrInput) :=
  (identify_fence_behavior parseStub fencedArrInput).2.1 [['x']]
    (by decide) (by decide) (by decide)

/-- Length of a Python slice. -/
theorem strSub_length (s : List Char) (i j : Nat) :
    (strSub s i j).length = min (j - i) (s.length - i) := by
  simp [strSub]

/-- Elements of a Python slice, positionally. -/
theorem strSub_getElem? (s : List Char) (i j k : Nat) (h : k < j - i) :
    (strSub s i j)[k]? = s[i + k]? := by
  simp [strSub, List.getElem?_take, h, List.getElem?_drop]

/-- A slice glued back onto the rest of the text. -/
theorem strSub_append_drop (s : List Char) (i j : Nat) (h : i ≤ j) :
    strSub s i j ++ s.drop j = s.drop i := by
  have h2 : s.drop j = (s.drop i).drop (j - i) := by
    rw [List.drop_drop]; congr 1; omega
  rw [h2, strSub, List.take_append_drop]

/-- Normalization never lengthens a string. -/
theorem normalize_length_le (s : List Char) :
    (normalize_and_strip s).length ≤ s.length :=
  List.length_filter_le _ _

/-- Normalization fixes exactly the combining-free strings. -/
theorem normalize_eq_self_iff (s : List Char) :
    normalize_and_strip s = s ↔ ∀ c ∈ s, isCombiningChar c = false := by
  simp [normalize_and_strip, List.filter_eq_self]

/-- Slices of a combining-free string are combining-free. -/
theorem normalize_strSub_eq_self {s : List Char}
    (h : normalize_and_strip s = s) (i j : Nat) :
    normalize_and_strip (strSub s i j) = strSub s i j := by
  rw [normalize_eq_self_iff] at h ⊢
  intro c hc
  have hc2 : c ∈ s.drop i := (List.take_sublist _ _).subset hc
  exact h c ((List.drop_sublist _ _).subset hc2)

/-- `matchesAt` unfolded. -/
theorem matchesAt_iff {hay need : List Char} {i : Nat} :
    matchesAt hay need i = true ↔ strSub hay i (i + need.length) = need := by
  simp [matchesAt]

/-- Soundness and minimality of the probe loop. -/
theorem pyFindAux_sound :
    ∀ (fuel i idx : Nat) (hay need : List Char),
      pyFindAux hay need i fuel = some idx →
      i ≤ idx ∧ idx < i + fuel ∧ matchesAt hay need idx = true ∧
        ∀ j, i ≤ j → j < idx → matchesAt hay need j = false := by
  intro fuel
  induction fuel with
  | zero => intro i idx hay need h; simp [pyFindAux] at h
  | succ f ih =>
    intro i idx hay need h
    simp only [pyFindAux] at h
    split at h
    · cases h
      refine ⟨le_refl _, by omega, by assumption, ?_⟩
      intro j h1 h2; omega
    · rcases ih (i + 1) idx hay need h with ⟨h1, h2, h3, h4⟩
      refine ⟨by omega, by omega, h3, ?_⟩
      intro j hj1 hj2
      by_cases hj : j = i
      · subst hj; simp_all
      · exact h4 j (by omega) hj2

/-- If the probe fails, nothing in its window matches. -/
theorem pyFindAux_none :
    ∀ (fuel i : Nat) (hay need : List Char),
      pyFindAux hay need i fuel = none →
      ∀ j, i ≤ j → j < i + fuel → matchesAt hay need j = false := by
  intro fuel
  induction fuel with
  | zero => intro i hay need _ j h1 h2; omega
  | succ f ih =>
    intro i hay need h j h1 h2
    simp only [pyFindAux] at h
    split at h
    · cases h
    · by_cases hj : j = i
      · subst hj; simp_all
      · exact ih (i + 1) hay need h j (by omega) (by omega)

/-- Soundness and minimality of `pyFind`. -/
theorem pyFind_some {hay need : List Char} {start idx : Nat}
    (h : pyFind hay need start = some idx) :
    start ≤ idx ∧ idx ≤ hay.length ∧ matchesAt hay need idx = true ∧
      ∀ j, start ≤ j → j < idx → matchesAt hay need j = false := by
  unfold pyFind at h
  split at h
  · rcases pyFindAux_sound _ _ _ _ _ h with ⟨h1, h2, h3, h4⟩
    exact ⟨h1, by omega, h3, h4⟩
  · cases h

/-- Completeness of `pyFind`. -/
theorem pyFind_none {hay need : List Char} {start : Nat}
    (h : pyFind hay need start = none) (j : Nat) (h1 : start ≤ j)
    (h2 : j ≤ hay.length) : matchesAt hay need j = false := by
  unfold pyFind at h
  split at h
  · exact pyFindAux_none _ _ _ _ h j h1 (by omega)
  · omega

/-- Soundness of the scan loop: collected indices are in-bounds
matches. -/
theorem findAllAux_sound :
    ∀ (fuel start idx : Nat) (hay need : List Char),
      idx ∈ findAllAux hay need start fuel →
      start ≤ idx ∧ idx ≤ hay.length ∧ matchesAt hay need idx = true := by
  intro fuel
  induction fuel with
  | zero => intro start idx hay need h; simp [findAllAux] at h
  | succ f ih =>
    intro start idx hay need h
    simp only [findAllAux] at h
    cases hf : pyFind hay need start with
    | none => rw [hf] at h; simp at h
    | some i =>
      rw [hf] at h
      rcases List.mem_cons.mp h with h2 | h2
      · subst h2
        rcases pyFind_some hf with ⟨h1, h2, h3, _⟩
        exact ⟨h1, h2, h3⟩
      · rcases ih (i + 1) idx hay need h2 with ⟨h1, h2, h3⟩
        rcases pyFind_some hf with ⟨g1, _, _, _⟩
        exact ⟨by omega, h2, h3⟩

/-- Completeness of the scan loop: every in-bounds match is
collected. -/
theorem findAllAux_complete :
    ∀ (fuel start j : Nat) (hay need : List Char),
      start ≤ j → j ≤ hay.length → matchesAt hay need j = true →
      hay.length + 1 ≤ start + fuel →
      j ∈ findAllAux hay need start fuel := by
  intro fuel
  induction fuel with
  | zero => intro start j hay need h1 h2 h3 h4; omega
  | succ f ih =>
    intro start j hay need h1 h2 h3 h4
    simp only [findAllAux]
    cases hf : pyFind hay need start with
    | none => exact absurd (pyFind_none hf j h1 h2) (by simp [h3])
    | some i =>
      rcases pyFind_some hf with ⟨g1, g2, g3, g4⟩
      by_cases hij : j = i
      · subst hij; exact List.mem_cons_self _ _
      · have hlt : i < j := by
          rcases Nat.lt_trichotomy i j with h | h | h
          · exact h
          · exact absurd h (Ne.symm hij)
          · exact absurd (g4 j h1 h) (by simp [h3])
        exact List.mem_cons_of_mem _
          (ih (i + 1) j hay need (by omega) h2 h3 (by omega))

/-- Membership in `findAll` characterizes in-bounds matches. -/
theorem mem_findAll {hay need : List Char} {idx : Nat} :
    idx ∈ findAll hay need ↔
      idx ≤ hay.length ∧ matchesAt hay need idx = true := by
  constructor
  · intro h
    rcases findAllAux_sound _ _ _ _ _ h with ⟨_, h2, h3⟩
    exact ⟨h2, h3⟩
  · intro h
    exact findAllAux_complete _ 0 idx hay need (Nat.zero_le _) h.1 h.2
      (by omega)

/-- Membership in the per-item mask ranges. -/
theorem mem_maskRangesOf {text piiItem : List Char} {r : Nat × Nat} :
    r ∈ maskRangesOf text piiItem ↔
      ∃ idx, idx ∈ findAll (normalize_and_strip text)
          (normalize_and_strip piiItem) ∧
        normalize_and_strip (strSub text idx (idx + piiItem.length)) =
          normalize_and_strip piiItem ∧
        r = (idx, idx + piiItem.length) := by
  simp only [maskRangesOf, List.mem_filterMap]
  constructor
  · rintro ⟨idx, h1, h2⟩
    split at h2
    · cases h2; exact ⟨idx, h1, by assumption, rfl⟩
    · cases h2
  · rintro ⟨idx, h1, h2, rfl⟩
    exact ⟨idx, h1, by rw [if_pos h2]⟩

/-- For a normalization-invariant PII item, every recorded range is
well-formed and within the text. -/
theorem maskRangesOf_bounds {text piiItem : List Char}
    (hp : normalize_and_strip piiItem = piiItem) {r : Nat × Nat}
    (h : r ∈ maskRangesOf text piiItem) :
    r.1 ≤ r.2 ∧ r.2 ≤ text.length := by
  rcases mem_maskRangesOf.mp h with ⟨idx, hidx, hguard, rfl⟩
  refine ⟨by simp, ?_⟩
  rcases mem_findAll.mp hidx with ⟨hle, _⟩
  have hidxle : idx ≤ text.length :=
    le_trans hle (normalize_length_le text)
  rw [hp] at hguard
  have hlen : (normalize_and_strip
      (strSub text idx (idx + piiItem.length))).length = piiItem.length :=
    congrArg List.length hguard
  have hnle := normalize_length_le (strSub text idx (idx + piiItem.length))
  have hsub := strSub_length text idx (idx + piiItem.length)
  simp only [hlen] at hnle
  rw [hsub] at hnle
  simp only
  omega

/-- Membership in the union of all items' ranges. -/
theorem mem_allMaskRanges {text : List Char} {piiItems : List (List Char)}
    {r : Nat × Nat} :
    r ∈ allMaskRanges text piiItems ↔
      ∃ p ∈ piiItems, r ∈ maskRangesOf text p := by
  simp [allMaskRanges]

/-- On a combining-free text, a true occurrence of a combining-free
item is recorded as a mask range. -/
theorem maskRangesOf_complete {text piiItem : List Char}
    (ht : normalize_and_strip text = text)
    (hp : normalize_and_strip piiItem = piiItem) {idx : Nat}
    (hle : idx ≤ text.length) (hm : matchesAt text piiItem idx = true) :
    (idx, idx + piiItem.length) ∈ maskRangesOf text piiItem := by
  refine mem_maskRangesOf.mpr ⟨idx, ?_, ?_, rfl⟩
  · rw [ht, hp]; exact mem_findAll.mpr ⟨hle, hm⟩
  · rw [hp, matchesAt_iff.mp hm, hp]

/-- Membership is preserved by the sort. -/
theorem mem_sortRanges {rs : List (Nat × Nat)} {r : Nat × Nat} :
    r ∈ sortRanges rs ↔ r ∈ rs :=
  (List.perm_insertionSort rangeLe rs).mem_iff

/-- After sorting, first components are non-decreasing. -/
theorem sortRanges_sorted_fst (rs : List (Nat × Nat)) :
    (sortRanges rs).Pairwise (fun a b => a.1 ≤ b.1) := by
  have h := List.sorted_insertionSort rangeLe rs
  exact h.imp (fun hab => by unfold rangeLe at hab; omega)

/-- A chain of well-formed ranges that starts at or after `lo` and
advances monotonically: each range starts no earlier than the previous
one ends. -/
def RangeChain : Nat → List (Nat × Nat) → Prop
  | _, [] => True
  | lo, r :: rs => lo ≤ r.1 ∧ r.1 ≤ r.2 ∧ RangeChain r.2 rs

/-- All ranges of a chain start at or after its lower bound. -/
theorem rangeChain_lower :
    ∀ (rs : List (Nat × Nat)) (lo : Nat), RangeChain lo rs →
      ∀ r ∈ rs, lo ≤ r.1 ∧ r.1 ≤ r.2 := by
  intro rs
  induction rs with
  | nil => intro lo _ r hr; simp at hr
  | cons r0 rest ih =>
    intro lo hc r hr
    simp only [RangeChain] at hc
    rcases List.mem_cons.mp hr with h | h
    · subst h; exact ⟨hc.1, hc.2.1⟩
    · have h2 := ih r0.2 hc.2.2 r h
      exact ⟨le_trans (le_trans hc.1 hc.2.1) h2.1, h2.2⟩

/-- The merge loop turns a sorted list of well-formed ranges into a
chain. -/
theorem mergeLoop_chain :
    ∀ (rs : List (Nat × Nat)) (cur : Nat × Nat) (lo : Nat),
      lo ≤ cur.1 → cur.1 ≤ cur.2 →
      (∀ r ∈ rs, cur.1 ≤ r.1 ∧ r.1 ≤ r.2) →
      rs.Pairwise (fun a b => a.1 ≤ b.1) →
      RangeChain lo (mergeLoop cur rs) := by
  intro rs
  induction rs with
  | nil =>
    intro cur lo h1 h2 _ _
    simp only [mergeLoop, RangeChain]
    exact ⟨h1, h2, trivial⟩
  | cons r rest ih =>
    intro cur lo h1 h2 hall hp
    simp only [mergeLoop]
    split
    · rename_i hlt
      simp only [RangeChain]
      refine ⟨h1, h2, ?_⟩
      refine ih r cur.2 (by omega) (hall r (by simp)).2 ?_
        (List.pairwise_cons.mp hp).2
      intro q hq
      exact ⟨(List.pairwise_cons.mp hp).1 q hq,
        (hall q (by simp [hq])).2⟩
    · rename_i hge
      refine ih (cur.1, max cur.2 r.2) lo h1
        (le_trans h2 (le_max_left _ _)) ?_ (List.pairwise_cons.mp hp).2
      intro q hq
      exact ⟨le_trans (hall r (by simp)).1
          ((List.pairwise_cons.mp hp).1 q hq),
        (hall q (by simp [hq])).2⟩

/-- The merge loop never raises the upper bound of the ranges. -/
theorem mergeLoop_bound :
    ∀ (rs : List (Nat × Nat)) (cur : Nat × Nat) (N : Nat),
      cur.2 ≤ N → (∀ r ∈ rs, r.2 ≤ N) →
      ∀ m ∈ mergeLoop cur rs, m.2 ≤ N := by
  intro rs
  induction rs with
  | nil =>
    intro cur N h1 _ m hm
    simp only [mergeLoop] at hm
    rcases List.mem_singleton.mp hm with rfl
    exact h1
  | cons r rest ih =>
    intro cur N h1 hall m hm
    simp only [mergeLoop] at hm
    split at hm
    · rcases List.mem_cons.mp hm with h | h
      · subst h; exact h1
      · exact ih r N (hall r (by simp)) (fun q hq => hall q (by simp [hq]))
          m h
    · refine ih (cur.1, max cur.2 r.2) N ?_
        (fun q hq => hall q (by simp [hq])) m hm
      simp only
      exact max_le h1 (hall r (by simp))

/-- Positions covered by the input of the merge loop remain covered by
its output. -/
theorem mergeLoop_cover :
    ∀ (rs : List (Nat × Nat)) (cur : Nat × Nat) (j : Nat),
      (∀ r ∈ rs, cur.1 ≤ r.1) →
      rs.Pairwise (fun a b => a.1 ≤ b.1) →
      ((cur.1 ≤ j ∧ j < cur.2) ∨ ∃ r ∈ rs, r.1 ≤ j ∧ j < r.2) →
      ∃ m ∈ mergeLoop cur rs, m.1 ≤ j ∧ j < m.2 := by
  intro rs
  induction rs with
  | nil =>
    intro cur j _ _ hcov
    rcases hcov with h | h
    · exact ⟨cur, by simp [mergeLoop], h⟩
    · simp at h
  | cons r rest ih =>
    intro cur j hall hp hcov
    simp only [mergeLoop]
    split
    · rename_i hlt
      rcases hcov with h | ⟨q, hq, hcq⟩
      · exact ⟨cur, by simp, h⟩
      · have h2 : ∃ m ∈ mergeLoop r rest, m.1 ≤ j ∧ j < m.2 := by
          refine ih r j (List.pairwise_cons.mp hp).1
            (List.pairwise_cons.mp hp).2 ?_
          rcases List.mem_cons.mp hq with h3 | h3
          · subst h3; exact Or.inl hcq
          · exact Or.inr ⟨q, h3, hcq⟩
        rcases h2 with ⟨m, hm, hmc⟩
        exact ⟨m, List.mem_cons_of_mem _ hm, hmc⟩
    · rename_i hge
      refine ih (cur.1, max cur.2 r.2) j ?_ (List.pairwise_cons.mp hp).2 ?_
      · intro q hq
        exact le_trans (hall r (by simp))
          ((List.pairwise_cons.mp hp).1 q hq)
      · rcases hcov with h | ⟨q, hq, hcq⟩
        · exact Or.inl ⟨h.1, lt_of_lt_of_le h.2 (le_max_left _ _)⟩
        · rcases List.mem_cons.mp hq with h3 | h3
          · subst h3
            exact Or.inl ⟨le_trans (hall q (by simp)) hcq.1,
              lt_of_lt_of_le hcq.2 (le_max_right _ _)⟩
          · exact Or.inr ⟨q, h3, hcq⟩

/-- If all ranges fed to the merge loop are zero-width, so are all
output ranges. -/
theorem mergeLoop_zero_width :
    ∀ (rs : List (Nat × Nat)) (cur : Nat × Nat),
      cur.1 = cur.2 → (∀ r ∈ rs, r.1 = r.2) →
      (∀ r ∈ rs, cur.1 ≤ r.1) →
      rs.Pairwise (fun a b => a.1 ≤ b.1) →
      ∀ m ∈ mergeLoop cur rs, m.1 = m.2 := by
  intro rs
  induction rs with
  | nil =>
    intro cur h1 _ _ _ m hm
    simp only [mergeLoop] at hm
    rcases List.mem_singleton.mp hm with rfl
    exact h1
  | cons r rest ih =>
    intro cur h1 hall hle hp m hm
    simp only [mergeLoop] at hm
    split at hm
    · rcases List.mem_cons.mp hm with h | h
      · subst h; exact h1
      · exact ih r (hall r (by simp)) (fun q hq => hall q (by simp [hq]))
          (List.pairwise_cons.mp hp).1 (List.pairwise_cons.mp hp).2 m h
    · rename_i hge
      have hr1 : r.1 = cur.1 := by
        have := hle r (by simp)
        have := hall r (by simp)
        omega
      have hmax : max cur.2 r.2 = cur.2 := by
        have := hall r (by simp)
        omega
      refine ih (cur.1, max cur.2 r.2) (by simp [hmax, h1])
        (fun q hq => hall q (by simp [hq])) ?_
        (List.pairwise_cons.mp hp).2 m hm
      intro q hq
      simp only
      exact hr1 ▸ (List.pairwise_cons.mp hp).1 q hq

/-- `merge_ranges` of a sorted list of well-formed ranges is a chain
from 0. -/
theorem merge_ranges_chain (rs : List (Nat × Nat))
    (h1 : ∀ r ∈ rs, r.1 ≤ r.2)
    (hp : rs.Pairwise (fun a b => a.1 ≤ b.1)) :
    RangeChain 0 (merge_ranges rs) := by
  cases rs with
  | nil => trivial
  | cons r rest =>
    refine mergeLoop_chain rest r 0 (Nat.zero_le _) (h1 r (by simp)) ?_
      (List.pairwise_cons.mp hp).2
    intro q hq
    exact ⟨(List.pairwise_cons.mp hp).1 q hq, h1 q (by simp [hq])⟩

/-- `merge_ranges` keeps every upper bound. -/
theorem merge_ranges_bound (rs : List (Nat × Nat)) (N : Nat)
    (h : ∀ r ∈ rs, r.2 ≤ N) :
    ∀ m ∈ merge_ranges rs, m.2 ≤ N := by
  cases rs with
  | nil => intro m hm; simp [merge_ranges] at hm
  | cons r rest =>
    exact mergeLoop_bound rest r N (h r (by simp))
      (fun q hq => h q (by simp [hq]))

/-- `merge_ranges` covers every position its input covers. -/
theorem merge_ranges_cover (rs : List (Nat × Nat))
    (hp : rs.Pairwise (fun a b => a.1 ≤ b.1)) (j : Nat)
    (h : ∃ r ∈ rs, r.1 ≤ j ∧ j < r.2) :
    ∃ m ∈ merge_ranges rs, m.1 ≤ j ∧ j < m.2 := by
  cases rs with
  | nil => simp at h
  | cons r rest =>
    refine mergeLoop_cover rest r j (List.pairwise_cons.mp hp).1
      (List.pairwise_cons.mp hp).2 ?_
    rcases h with ⟨q, hq, hc⟩
    rcases List.mem_cons.mp hq with h2 | h2
    · subst h2; exact Or.inl hc
    · exact Or.inr ⟨q, h2, hc⟩

/-- `merge_ranges` of sorted zero-width ranges yields zero-width
ranges. -/
theorem merge_ranges_zero_width (rs : List (Nat × Nat))
    (h : ∀ r ∈ rs, r.1 = r.2)
    (hp : rs.Pairwise (fun a b => a.1 ≤ b.1)) :
    ∀ m ∈ merge_ranges rs, m.1 = m.2 := by
  cases rs with
  | nil => intro m hm; simp [merge_ranges] at hm
  | cons r rest =>
    refine mergeLoop_zero_width rest r (h r (by simp))
      (fun q hq => h q (by simp [hq])) ?_ (List.pairwise_cons.mp hp).2
    intro q hq
    exact (h r (by simp)) ▸ (List.pairwise_cons.mp hp).1 q hq

/-- The masked output of a bounded chain has the length of the
unprocessed suffix. -/
theorem build_masked_length :
    ∀ (rs : List (Nat × Nat)) (text : List Char) (lo : Nat),
      RangeChain lo rs → (∀ r ∈ rs, r.2 ≤ text.length) →
      lo ≤ text.length →
      (build_masked text lo rs).length = text.length - lo := by
  intro rs
  induction rs with
  | nil => intro text lo _ _ _; simp [build_masked]
  | cons r rest ih =>
    intro text lo hc hb hlo
    obtain ⟨s, e⟩ := r
    simp only [RangeChain] at hc
    obtain ⟨h1, h2, h3⟩ := hc
    have he : e ≤ text.length := hb (s, e) (by simp)
    simp only [build_masked, List.length_append, List.length_replicate,
      strSub_length]
    rw [ih text e h3 (fun q hq => hb q (by simp [hq])) he]
    omega

/-- Positions outside every range of the chain are copied from the
text. -/
theorem build_masked_outside :
    ∀ (rs : List (Nat × Nat)) (text : List Char) (lo j : Nat),
      RangeChain lo rs → (∀ r ∈ rs, r.2 ≤ text.length) →
      lo ≤ text.length → lo ≤ j →
      (∀ r ∈ rs, ¬(r.1 ≤ j ∧ j < r.2)) →
      (build_masked text lo rs)[j - lo]? = text[j]? := by
  intro rs
  induction rs with
  | nil =>
    intro text lo j _ _ _ hj _
    simp only [build_masked, List.getElem?_drop]
    congr 1
    omega
  | cons r rest ih =>
    intro text lo j hc hb hlo hj hout
    obtain ⟨s, e⟩ := r
    simp only [RangeChain] at hc
    obtain ⟨h1, h2, h3⟩ := hc
    have he : e ≤ text.length := hb (s, e) (by simp)
    have hnot := hout (s, e) (by simp)
    simp only at hnot
    simp only [build_masked]
    by_cases hcase : j < s
    · have hl1 : j - lo <
          (strSub text lo s ++ List.replicate (e - s) maskChar).length := by
        simp only [List.length_append, strSub_length, List.length_replicate]
        omega
      rw [List.getElem?_append, if_pos hl1]
      have hl2 : j - lo < (strSub text lo s).length := by
        rw [strSub_length]; omega
      rw [List.getElem?_append, if_pos hl2]
      rw [strSub_getElem? text lo s (j - lo) (by omega)]
      congr 1
      omega
    · have hej : e ≤ j := by omega
      have hge1 : (strSub text lo s ++
          List.replicate (e - s) maskChar).length ≤ j - lo := by
        simp only [List.length_append, strSub_length, List.length_replicate]
        omega
      rw [List.getElem?_append_right hge1]
      have harith : j - lo - (strSub text lo s ++
          List.replicate (e - s) maskChar).length = j - e := by
        simp only [List.length_append, strSub_length, List.length_replicate]
        omega
      rw [harith]
      exact ih text e j h3 (fun q hq => hb q (by simp [hq])) he hej
        (fun q hq => hout q (by simp [hq]))

/-- Positions inside some range of the chain are mask characters. -/
theorem build_masked_inside :
    ∀ (rs : List (Nat × Nat)) (text : List Char) (lo j : Nat),
      RangeChain lo rs → (∀ r ∈ rs, r.2 ≤ text.length) →
      lo ≤ text.length →
      (∃ r ∈ rs, r.1 ≤ j ∧ j < r.2) →
      (build_masked text lo rs)[j - lo]? = some maskChar := by
  intro rs
  induction rs with
  | nil => intro text lo j _ _ _ h; simp at h
  | cons r rest ih =>
    intro text lo j hc hb hlo hcov
    obtain ⟨s, e⟩ := r
    simp only [RangeChain] at hc
    obtain ⟨h1, h2, h3⟩ := hc
    have he : e ≤ text.length := hb (s, e) (by simp)
    simp only [build_masked]
    rcases hcov with ⟨q, hq, hcq⟩
    rcases List.mem_cons.mp hq with hh | hh
    · subst hh
      simp only at hcq
      have hl1 : j - lo <
          (strSub text lo s ++ List.replicate (e - s) maskChar).length := by
        simp only [List.length_append, strSub_length, List.length_replicate]
        omega
      rw [List.getElem?_append, if_pos hl1]
      have hge1 : (strSub text lo s).length ≤ j - lo := by
        rw [strSub_length]; omega
      rw [List.getElem?_append_right hge1]
      rw [List.getElem?_replicate]
      rw [if_pos (by rw [strSub_length]; omega)]
    · have hq1 := rangeChain_lower rest e h3 q hh
      have hej : e ≤ j := le_trans hq1.1 hcq.1
      have hge1 : (strSub text lo s ++
          List.replicate (e - s) maskChar).length ≤ j - lo := by
        simp only [List.length_append, strSub_length, List.length_replicate]
        omega
      rw [List.getElem?_append_right hge1]
      have harith : j - lo - (strSub text lo s ++
          List.replicate (e - s) maskChar).length = j - e := by
        simp only [List.length_append, strSub_length, List.length_replicate]
        omega
      rw [harith]
      exact ih text e j h3 (fun p hp2 => hb p (by simp [hp2])) he
        ⟨q, hh, hcq⟩

/-- A chain of zero-width ranges builds the text back unchanged. -/
theorem build_masked_zero_width :
    ∀ (rs : List (Nat × Nat)) (text : List Char) (lo : Nat),
      RangeChain lo rs → (∀ r ∈ rs, r.1 = r.2) →
      build_masked text lo rs = text.drop lo := by
  intro rs
  induction rs with
  | nil => intro text lo _ _; rfl
  | cons r rest ih =>
    intro text lo hc hz
    obtain ⟨s, e⟩ := r
    simp only [RangeChain] at hc
    obtain ⟨h1, h2, h3⟩ := hc
    have hse : s = e := hz (s, e) (by simp)
    subst hse
    simp only [build_masked, Nat.sub_self, List.replicate_zero,
      List.append_nil]
    rw [ih text s h3 (fun q hq => hz q (by simp [hq]))]
    exact strSub_append_drop text lo s h1

/-- With normalization-invariant PII spans, the merged ranges form a
bounded chain. -/
theorem mergedMaskRanges_chain (text : List Char)
    (piiItems : List (List Char))
    (hp : ∀ p ∈ piiItems, normalize_and_strip p = p) :
    RangeChain 0 (mergedMaskRanges text piiItems) ∧
    ∀ r ∈ mergedMaskRanges text piiItems, r.2 ≤ text.length := by
  have hwf : ∀ r ∈ sortRanges (allMaskRanges text piiItems),
      r.1 ≤ r.2 ∧ r.2 ≤ text.length := by
    intro r hr
    rcases mem_allMaskRanges.mp (mem_sortRanges.mp hr) with ⟨p, hp2, hr2⟩
    exact maskRangesOf_bounds (hp p hp2) hr2
  exact ⟨merge_ranges_chain _ (fun r hr => (hwf r hr).1)
      (sortRanges_sorted_fst _),
    merge_ranges_bound _ _ (fun r hr => (hwf r hr).2)⟩

/-- C1 (amended): provided every PII span is invariant under
normalization (contains no combining marks), masking preserves length,
and every character outside the merged matched ranges is unchanged at
its position. -/
theorem mask_preserves_layout (text : List Char)
    (piiItems : List (List Char))
    (hp : ∀ p ∈ piiItems, normalize_and_strip p = p) :
    (mask_text_with_normalization text piiItems).length = text.length ∧
    ∀ j : Nat,
      (∀ r ∈ mergedMaskRanges text piiItems, ¬(r.1 ≤ j ∧ j < r.2)) →
      (mask_text_with_normalization text piiItems)[j]? = text[j]? := by
  by_cases hemp : piiItems.isEmpty = true
  · simp [mask_text_with_normalization, hemp]
  · rcases mergedMaskRanges_chain text piiItems hp with ⟨hchain, hbound⟩
    constructor
    · rw [mask_text_with_normalization, if_neg hemp]
      rw [build_masked_length _ text 0 hchain hbound (Nat.zero_le _)]
      omega
    · intro j hout
      rw [mask_text_with_normalization, if_neg hemp]
      have h := build_masked_outside _ text 0 j hchain hbound
        (Nat.zero_le _) (Nat.zero_le _) hout
      simpa using h

/-- The combining acute accent, U+0301. -/
def combAcute : Char := '́'

/-- The two-character text of the C1 counterexample. -/
def cexText : List Char := ['x', 'e']

/-- A PII span written as base letter plus combining accent; its
normalized form "e" is found at index 1 of the normalized text, and
the recorded range (1, 3) runs past the end of the text. -/
def cexItem : List Char := ['e', combAcute]

/-- C1 counterexample: masking `"xe"` with the span `"e" + U+0301`
yields `"x**"`, which is longer than the input, so the claimed length
preservation fails for general PII lists. -/
theorem mask_length_cex :
    mask_text_with_normalization cexText [cexItem] =
      ['x', maskChar, maskChar] ∧
    (mask_text_with_normalization cexText [cexItem]).length ≠
      cexText.length := by
  exact ⟨by decide, by decide⟩

/-- C1 witness: the amended theorem at a concrete text and span. -/
theorem mask_preserves_layout_witness :
    (mask_text_with_normalization ("abc".toList) ["b".toList]).length =
      ("abc".toList).length :=
  (mask_preserves_layout ("abc".toList) ["b".toList] (by decide)).1

/-- C2 (amended): masking is idempotent provided the text and every
PII span are invariant under normalization (no combining marks) and no
span contains the mask character. -/
theorem mask_idempotent_clean (text : List Char)
    (piiItems : List (List Char))
    (ht : normalize_and_strip text = text)
    (hp : ∀ p ∈ piiItems, normalize_and_strip p = p)
    (hstar : ∀ p ∈ piiItems, maskChar ∉ p) :
    mask_text_with_normalization
      (mask_text_with_normalization text piiItems) piiItems =
      mask_text_with_normalization text piiItems := by
  by_cases hemp : piiItems.isEmpty = true
  · simp [mask_text_with_normalization, hemp]
  · have hchain := (mergedMaskRanges_chain text piiItems hp).1
    have hbound := (mergedMaskRanges_chain text piiItems hp).2
    have hMdef : mask_text_with_normalization text piiItems =
        build_masked text 0 (mergedMaskRanges text piiItems) := by
      rw [mask_text_with_normalization, if_neg hemp]
    have hlen : (mask_text_with_normalization text piiItems).length =
        text.length := (mask_preserves_layout text piiItems hp).1
    have hinside : ∀ j,
        (∃ r ∈ mergedMaskRanges text piiItems, r.1 ≤ j ∧ j < r.2) →
        (mask_text_with_normalization text piiItems)[j]? =
          some maskChar := by
      intro j hcov
      rw [hMdef]
      have h := build_masked_inside _ text 0 j hchain hbound
        (Nat.zero_le _) hcov
      simpa using h
    have houtside : ∀ j,
        ¬(∃ r ∈ mergedMaskRanges text piiItems, r.1 ≤ j ∧ j < r.2) →
        (mask_text_with_normalization text piiItems)[j]? = text[j]? := by
      intro j hcov
      refine (mask_preserves_layout text piiItems hp).2 j ?_
      push_neg at hcov
      intro r hr
      have h2 := hcov r hr
      omega
    have hMnorm : normalize_and_strip
        (mask_text_with_normalization text piiItems) =
        mask_text_with_normalization text piiItems := by
      rw [normalize_eq_self_iff]
      intro c hc
      rcases List.mem_iff_getElem?.mp hc with ⟨j, hj⟩
      by_cases hcov : ∃ r ∈ mergedMaskRanges text piiItems,
          r.1 ≤ j ∧ j < r.2
      · rw [hinside j hcov] at hj
        injection hj with hj2
        subst hj2
        decide
      · rw [houtside j hcov] at hj
        exact (normalize_eq_self_iff text).mp ht c
          (List.mem_iff_getElem?.mpr ⟨j, hj⟩)
    have hnil : ∀ p ∈ piiItems, p ≠ [] →
        maskRangesOf (mask_text_with_normalization text piiItems) p = [] := by
      intro p hpmem hpne
      rw [List.eq_nil_iff_forall_not_mem]
      intro r hr
      rcases mem_maskRangesOf.mp hr with ⟨idx, hidx, _, rfl⟩
      rw [hMnorm, hp p hpmem] at hidx
      rcases mem_findAll.mp hidx with ⟨hle, hmatch⟩
      have hslice := matchesAt_iff.mp hmatch
      have hplen : 0 < p.length := List.length_pos.mpr hpne
      have hlensl := congrArg List.length hslice
      rw [strSub_length] at hlensl
      have hbound2 : idx + p.length ≤
          (mask_text_with_normalization text piiItems).length := by omega
      have hpoint : ∀ k, k < p.length →
          (mask_text_with_normalization text piiItems)[idx + k]? =
            p[k]? := by
        intro k hk
        have h1 := strSub_getElem?
          (mask_text_with_normalization text piiItems) idx
          (idx + p.length) k (by omega)
        rw [hslice] at h1
        exact h1.symm
      have hnotcov : ∀ k, k < p.length →
          ¬(∃ r ∈ mergedMaskRanges text piiItems,
            r.1 ≤ idx + k ∧ idx + k < r.2) := by
        intro k hk hcov
        have h2 := hinside (idx + k) hcov
        rw [hpoint k hk] at h2
        rcases List.getElem?_eq_some.mp h2 with ⟨hlt, heq⟩
        exact hstar p hpmem (heq ▸ List.getElem_mem hlt)
      have htext : matchesAt text p idx = true := by
        rw [matchesAt_iff]
        apply List.ext_getElem?
        intro n
        by_cases hn : n < p.length
        · rw [strSub_getElem? text idx (idx + p.length) n (by omega)]
          rw [← houtside (idx + n) (hnotcov n hn)]
          exact hpoint n hn
        · have hl1 : (strSub text idx (idx + p.length)).length =
              p.length := by
            rw [strSub_length, ← hlen]
            omega
          rw [List.getElem?_eq_none (by rw [hl1]; omega),
            List.getElem?_eq_none (by omega)]
      have hidxle : idx ≤ text.length := by
        rw [← hlen]; omega
      have hrange := maskRangesOf_complete ht (hp p hpmem) hidxle htext
      have hcovidx : ∃ m ∈ mergedMaskRanges text piiItems,
          m.1 ≤ idx ∧ idx < m.2 := by
        apply merge_ranges_cover _ (sortRanges_sorted_fst _) idx
        refine ⟨(idx, idx + p.length), ?_, by simp, by simp; omega⟩
        exact mem_sortRanges.mpr (mem_allMaskRanges.mpr ⟨p, hpmem, hrange⟩)
      have hnot0 := hnotcov 0 hplen
      simp only [Nat.add_zero] at hnot0
      exact hnot0 hcovidx
    have hzero : ∀ r ∈ allMaskRanges
        (mask_text_with_normalization text piiItems) piiItems,
        r.1 = r.2 := by
      intro r hr
      rcases mem_allMaskRanges.mp hr with ⟨p, hpmem, hr2⟩
      by_cases hpe : p = []
      · subst hpe
        rcases mem_maskRangesOf.mp hr2 with ⟨idx, _, _, rfl⟩
        simp
      · rw [hnil p hpmem hpe] at hr2
        simp at hr2
    have hsortzero : ∀ r ∈ sortRanges (allMaskRanges
        (mask_text_with_normalization text piiItems) piiItems),
        r.1 = r.2 := fun r hr => hzero r (mem_sortRanges.mp hr)
    have hmergezero := merge_ranges_zero_width _ hsortzero
      (sortRanges_sorted_fst _)
    have hchain2 : RangeChain 0 (mergedMaskRanges
        (mask_text_with_normalization text piiItems) piiItems) :=
      merge_ranges_chain _ (fun r hr => le_of_eq (hsortzero r hr))
        (sortRanges_sorted_fst _)
    conv_lhs => rw [mask_text_with_normalization, if_neg hemp]
    rw [build_masked_zero_width _ _ 0 hchain2 hmergezero]
    exact List.drop_zero _

/-- C2 witness: the amended theorem at a concrete text and span. -/
theorem mask_idempotent_witness :
    mask_text_with_normalization
      (mask_text_with_normalization ("ab".toList) ["a".toList])
      ["a".toList] =
      mask_text_with_normalization ("ab".toList) ["a".toList] :=
  mask_idempotent_clean ("ab".toList) ["a".toList] (by decide) (by decide)
    (by decide)

/-- The text of the C2 counterexample. -/
def cexTextAB : List Char := ['a', 'b']

/-- The first counterexample span, matching the first character. -/
def cexItemA : List Char := ['a']

/-- The second counterexample span, starting with the mask
character: it does not occur in the raw text but appears after the
first span is masked. -/
def cexItemStarB : List Char := [maskChar, 'b']

/-- C2 counterexample: masking `"ab"` with spans `["a", "*b"]` gives
`"*b"`, but masking again gives `"**"` — idempotence fails for spans
containing the mask character. -/
theorem mask_idempotent_cex :
    mask_text_with_normalization cexTextAB [cexItemA, cexItemStarB] =
      [maskChar, 'b'] ∧
    mask_text_with_normalization
      (mask_text_with_normalization cexTextAB [cexItemA, cexItemStarB])
      [cexItemA, cexItemStarB] = [maskChar, maskChar] ∧
    mask_text_with_normalization
      (mask_text_with_normalization cexTextAB [cexItemA, cexItemStarB])
      [cexItemA, cexItemStarB] ≠
      mask_text_with_normalization cexTextAB [cexItemA, cexItemStarB] := by
  refine ⟨by decide, by decide, by decide⟩
